import Mathlib

/-!
Shallow embedding of the terminal chat renderer (the "core" of the
repository): the text wrapper `wrapText`, the bubble formatter
`bubbleLines`, the layout renderer `render`, and the session-state
mutation API `addMessage` / `setTyping`.

Strings are modelled as `List Char`; JavaScript string `.length` is list
length.  Machine numbers are `Nat` / `Int` with explicit arithmetic.
-/

namespace Chat

/-- Sender identities: `me` is the spec's "self", `them` the spec's
"counterparty", `system` the status/error annotation sender. -/
inductive Sender where
  | me
  | them
  | system
deriving DecidableEq, Repr

/-- Characters matched by the JavaScript regex class `\s` (the separator
class used in `p.split(/\s+/)` inside `wrapText`). -/
def jsWhitespace (c : Char) : Bool :=
  c.val = 0x20 || c.val = 0x09 || c.val = 0x0a || c.val = 0x0b ||
  c.val = 0x0c || c.val = 0x0d || c.val = 0xa0 || c.val = 0x1680 ||
  (0x2000 ≤ c.val && c.val ≤ 0x200a) || c.val = 0x2028 || c.val = 0x2029 ||
  c.val = 0x202f || c.val = 0x205f || c.val = 0x3000 || c.val = 0xfeff

/-- Model of JavaScript `String.prototype.split` with a one-character
separator class: split at every separator occurrence, keeping empty
segments (so the result is never empty). -/
def splitOnPred (p : Char → Bool) : List Char → List (List Char)
  | [] => [[]]
  | c :: cs =>
    if p c then [] :: splitOnPred p cs
    else
      match splitOnPred p cs with
      | [] => [[c]]
      | g :: gs => (c :: g) :: gs

/-- The word list of one paragraph: `p.split(/\s+/).filter(Boolean)` —
split at whitespace and drop the empty segments. -/
def wordsOf (p : List Char) : List (List Char) :=
  (splitOnPred jsWhitespace p).filter (fun w => !w.isEmpty)

/-- The paragraph list of the input: `text.split("\n")`. -/
def paras (text : List Char) : List (List Char) :=
  splitOnPred (fun c => c == '\n') text

/-- Step-counted model of the hard-split loop
`for (let i = 0; i < w.length; i += width) lines.push(w.slice(i, i + width))`:
each iteration pushes the next `width`-sized slice and drops `width`
characters.  `none` means the step budget ran out before the loop finished
(with `width = 0` the loop never advances, so no finite budget suffices). -/
def chunksFuel : Nat → Nat → List Char → Option (List (List Char))
  | _, _, [] => some []
  | 0, _, _ :: _ => none
  | f + 1, width, c :: cs =>
    (chunksFuel f width ((c :: cs).drop width)).map ((c :: cs).take width :: ·)

/-- The hard-split loop's value; a budget of `w.length` iterations is
enough whenever `width ≥ 1` (proved below), which is the only way
`bubbleLines` ever calls it. -/
def chunks (width : Nat) (cs : List Char) : List (List Char) :=
  (chunksFuel cs.length width cs).getD []

/-- The greedy word-filling loop of `wrapText`: `line` is the line under
construction, and each word either extends it, flushes it, or is
hard-split when longer than `width`. -/
def wrapWords (width : Nat) : List Char → List (List Char) → List (List Char)
  | line, [] => if line = [] then [] else [line]
  | line, w :: ws =>
    let next := if line = [] then w else line ++ ' ' :: w
    if next.length ≤ width then wrapWords width next ws
    else if width < w.length then
      (if line = [] then [] else [line]) ++ chunks width w ++ wrapWords width [] ws
    else
      (if line = [] then [] else [line]) ++ wrapWords width w ws

/-- The paragraph loop of `wrapText`: wrap each paragraph's words and, when
the paragraph is not equal (as a string — the source compares `p !==
paras[paras.length - 1]` by value) to the last paragraph, push one blank
line. -/
def wrapParas (width : Nat) (lst : Option (List Char)) :
    List (List Char) → List (List Char)
  | [] => []
  | p :: ps =>
    wrapWords width [] (wordsOf p) ++
      (if some p = lst then [] else [[]]) ++ wrapParas width lst ps

/-- The text wrapper `wrapText(text, width)`. -/
def wrapText (text : List Char) (width : Nat) : List (List Char) :=
  wrapParas width (paras text).getLast? (paras text)

/-- Fuel-counted `stripTags`: scan for `\x7b`, optionally `/`, one or more
non-`\x7d` characters, then `\x7d`; delete every such match (the regex
`s.replace(/\x7b\/?[^\x7d]+\x7d/g, "")`).  One unit of fuel is spent per
scanned position, so `cs.length` fuel always suffices. -/
def stripTagsFuel : Nat → List Char → List Char
  | 0, cs => cs
  | _ + 1, [] => []
  | f + 1, c :: rest =>
    if c = '{' then
      match rest.takeWhile (fun d => d ≠ '}'), rest.dropWhile (fun d => d ≠ '}') with
      | _ :: _, _ :: tail => stripTagsFuel f tail
      | _, _ => c :: stripTagsFuel f rest
    else c :: stripTagsFuel f rest

/-- Strip blessed-style markup tags from a string; the "visible length" of
a decorated line is `(stripTags l).length`. -/
def stripTags (cs : List Char) : List Char :=
  stripTagsFuel cs.length cs

/-- The helper `clamp(n, lo, hi) = Math.max(lo, Math.min(hi, n))`. -/
def clamp (n lo hi : Int) : Int :=
  max lo (min hi n)

/-- Horizontal padding inside a bubble (one column each side). -/
def innerPadX : Nat := 1

/-- Inner content width of a bubble:
`clamp(maxWidth - 2 - innerPadX * 2, 10, maxWidth)`. -/
def maxInnerI (maxWidth : Int) : Int :=
  clamp (maxWidth - 2 - 2 * (innerPadX : Int)) 10 maxWidth

/-- The inner content width as a natural number (it is always `≥ 10`). -/
def maxInnerN (maxWidth : Int) : Nat :=
  (maxInnerI maxWidth).toNat

/-- The wrapped content lines of a bubble for `text` at `maxWidth`. -/
def bubbleContent (text : List Char) (maxWidth : Int) : List (List Char) :=
  wrapText text (maxInnerN maxWidth)

/-- Opening style tag keyed by sender identity. -/
def styleOpen : Sender → List Char
  | .me => "\x7bcyan-fg\x7d".toList
  | .them => "\x7blight-gray-fg\x7d".toList
  | .system => "\x7bgreen-fg\x7d".toList

/-- Closing style tag. -/
def styleClose : List Char := "\x7b/\x7d".toList

/-- A bubble: the decorated display lines plus the total rendered width. -/
structure Bubble where
  lines : List (List Char)
  width : Nat
deriving DecidableEq, Repr

/-- The bubble's content width:
`Math.min(maxInner, Math.max(1, ...contentLines.map(l => stripTags(l).length)))`
— the inner width shrunk to the longest visible line, floored at 1. -/
def contentWidth (text : List Char) (maxWidth : Int) : Nat :=
  min (maxInnerN maxWidth)
    (((bubbleContent text maxWidth).map (fun l => (stripTags l).length)).foldr max 1)

/-- The top border of a bubble of content width `cw`. -/
def topBorder (cw : Nat) : List Char :=
  '╭' :: List.replicate (cw + 2 * innerPadX) '─' ++ ['╮']

/-- The bottom border of a bubble of content width `cw`. -/
def botBorder (cw : Nat) : List Char :=
  '╰' :: List.replicate (cw + 2 * innerPadX) '─' ++ ['╯']

/-- One content line of a bubble: border, padding, the wrapped line, right
padding up to the content width (measured on the stripped line), padding,
border. -/
def middleLine (cw : Nat) (l : List Char) : List Char :=
  '│' :: List.replicate innerPadX ' ' ++ l ++
    List.replicate (cw - (stripTags l).length) ' ' ++
    List.replicate innerPadX ' ' ++ ['│']

/-- The timestamp line (one leading space, then the gray-styled time). -/
def tsLine (fmt : Nat → List Char) (ts : Nat) : List Char :=
  ' ' :: ("\x7bgray-fg\x7d".toList ++ fmt ts ++ "\x7b/gray-fg\x7d".toList)

/-- Wrap a bubble line in the sender's style markup. -/
def decorate (s : Sender) (m : List Char) : List Char :=
  styleOpen s ++ m ++ styleClose

/-- The bubble formatter `bubbleLines(sender, text, ts, maxWidth)`.  The
locale-dependent `timeHHMM` timestamp formatter is a parameter `fmt`. -/
def bubbleLines (fmt : Nat → List Char) (sender : Sender) (text : List Char)
    (ts : Nat) (maxWidth : Int) : Bubble :=
  let cw := contentWidth text maxWidth
  { lines :=
      decorate sender (topBorder cw) ::
        (bubbleContent text maxWidth).map
          (fun l => decorate sender (middleLine cw l)) ++
        [decorate sender (botBorder cw), tsLine fmt ts],
    width := cw + 2 * innerPadX + 2 }

/-- One chat message. -/
structure Msg where
  id : Nat
  sender : Sender
  text : List Char
  ts : Nat
deriving DecidableEq, Repr

/-- The mutable session state.  `liveTimers` is not a program variable: it
models the number of interval timers currently registered with the
JavaScript event loop (incremented by `setInterval`, decremented by
`clearInterval` on a live handle). -/
structure ChatState where
  messages : List Msg
  typing : Bool
  typingAnim : Option Unit
  typingFrame : Nat
  liveTimers : Nat
deriving DecidableEq, Repr

/-- The initial session state. -/
def initState : ChatState :=
  { messages := [], typing := false, typingAnim := none, typingFrame := 0,
    liveTimers := 0 }

/-- The mutation `addMessage(sender, text)`: push a message with a fresh id and the
current time onto the sequence.  The id (from `crypto.randomUUID()`) and
timestamp (from `Date.now()`) are environment inputs, passed as
parameters. -/
def addMessage (id ts : Nat) (sender : Sender) (text : List Char)
    (st : ChatState) : ChatState :=
  { st with messages := st.messages ++ [⟨id, sender, text, ts⟩] }

/-- The mutation `setTyping(on)`: set the flag; when turning on, lazily create the
interval timer if none is live; when turning off, cancel any live timer,
clear the handle and reset the animation frame. -/
def setTyping (active : Bool) (st : ChatState) : ChatState :=
  let st1 := { st with typing := active }
  if active then
    match st1.typingAnim with
    | none =>
      { st1 with typingAnim := some (), liveTimers := st1.liveTimers + 1 }
    | some _ => st1
  else
    { st1 with
        typingAnim := none
        typingFrame := 0
        liveTimers := st1.liveTimers - (if st1.typingAnim.isSome then 1 else 0) }

/-- One tick of the typing-animation interval: increment the frame
counter (the tick callback then re-renders, which is state-free). -/
def tickState (st : ChatState) : ChatState :=
  { st with typingFrame := st.typingFrame + 1 }

/-- States reachable from `initState` through the two mutation operations
plus timer ticks; a tick can only fire while an interval timer is live. -/
inductive Reachable : ChatState → Prop where
  | init : Reachable initState
  | add (id ts : Nat) (sender : Sender) (text : List Char) {st : ChatState} :
      Reachable st → Reachable (addMessage id ts sender text st)
  | toggle (active : Bool) {st : ChatState} :
      Reachable st → Reachable (setTyping active st)
  | tick {st : ChatState} :
      Reachable st → 0 < st.liveTimers → Reachable (tickState st)

/-- Maximum bubble width used by the renderer: `Math.floor(W * 0.7)`,
modelled in exact arithmetic. -/
def maxBubble (W : Nat) : Nat := 7 * W / 10

/-- The four typing-animation strings `["   ", ".  ", ".. ", "..."]`,
indexed by `typingFrame % 4`. -/
def dotsGlyph : Nat → List Char
  | 0 => "   ".toList
  | 1 => ".  ".toList
  | 2 => ".. ".toList
  | _ => "...".toList

/-- The renderer's block for one message: its bubble's lines, each
prefixed by the alignment padding (right-aligned for `me`, a one-column
indent otherwise), followed by one blank separator line. -/
def msgBlock (fmt : Nat → List Char) (W : Nat) (m : Msg) : List (List Char) :=
  let b := bubbleLines fmt m.sender m.text m.ts (maxBubble W : Int)
  let pad := if m.sender = .me then W - (b.width + 2) else 1
  b.lines.map (fun l => List.replicate pad ' ' ++ l) ++ [[]]

/-- The renderer's output for the message list alone. -/
def renderMsgs (fmt : Nat → List Char) (W : Nat) (msgs : List Msg) :
    List (List Char) :=
  (msgs.map (msgBlock fmt W)).flatten

/-- The synthetic typing-indicator block: a bubble for sender `them` whose
text is the current animation glyph, at most width `min 18 maxBubble`,
left-aligned with a one-column indent, followed by a blank line. -/
def typingBlock (fmt : Nat → List Char) (now frame W : Nat) :
    List (List Char) :=
  let b := bubbleLines fmt .them (dotsGlyph (frame % 4)) now
    (min 18 (maxBubble W) : Int)
  b.lines.map (fun l => ' ' :: l) ++ [[]]

/-- The layout renderer `render()`: the list of viewport lines (the source
joins them with newlines, sets the viewport content and scrolls to the
bottom — display-surface effects outside the state model).  `now` is the
`Date.now()` value read for the typing bubble's timestamp. -/
def render (fmt : Nat → List Char) (now : Nat) (st : ChatState) (W : Nat) :
    List (List Char) :=
  renderMsgs fmt W st.messages ++
    (if st.typing then typingBlock fmt now st.typingFrame W else [])

/-- Fuel-counted variant of the greedy word loop, propagating a possible
hard-split-loop timeout. -/
def wrapWordsF (width : Nat) : List Char → List (List Char) →
    Option (List (List Char))
  | line, [] => some (if line = [] then [] else [line])
  | line, w :: ws =>
    let next := if line = [] then w else line ++ ' ' :: w
    if next.length ≤ width then wrapWordsF width next ws
    else if width < w.length then
      match chunksFuel w.length width w, wrapWordsF width [] ws with
      | some cks, some rest =>
        some ((if line = [] then [] else [line]) ++ cks ++ rest)
      | _, _ => none
    else
      (wrapWordsF width w ws).map
        (fun rest => (if line = [] then [] else [line]) ++ rest)

/-- Fuel-counted variant of the paragraph loop. -/
def wrapParasF (width : Nat) (lst : Option (List Char)) :
    List (List Char) → Option (List (List Char))
  | [] => some []
  | p :: ps =>
    match wrapWordsF width [] (wordsOf p), wrapParasF width lst ps with
    | some lp, some rest =>
      some (lp ++ (if some p = lst then [] else [[]]) ++ rest)
    | _, _ => none

/-- Fuel-counted `wrapText`: `some` exactly when every hard-split loop
finishes within its step budget. -/
def wrapTextF (text : List Char) (width : Nat) : Option (List (List Char)) :=
  wrapParasF width (paras text).getLast? (paras text)

/-- Joining two line fragments with a single space (empty fragments
disappear). -/
def glue (l r : List Char) : List Char :=
  if l = [] then r else if r = [] then l else l ++ ' ' :: r

/-- Join a paragraph's wrapped lines back with single spaces. -/
def paraJoin (L : List (List Char)) : List Char :=
  L.foldr glue []

/-- Modelled from the spec (claim C4's reconstruction): concatenate the
wrapper's output, replacing each inserted paragraph-break blank line by a
single newline and each line join within a paragraph by a single space. -/
def unwrap : List (List Char) → List Char
  | [] => []
  | [] :: rest => '\n' :: unwrap rest
  | (c :: cs) :: rest =>
    match rest with
    | (_ :: _) :: _ => (c :: cs) ++ ' ' :: unwrap rest
    | _ => (c :: cs) ++ unwrap rest

/-- Modelled from the spec (claim C4's right-hand side): the original text
with every whitespace run inside a paragraph collapsed to a single space
and paragraph breaks kept as newlines. -/
def normalizeWS (text : List Char) : List Char :=
  List.intercalate ['\n']
    ((paras text).map (fun p => List.intercalate [' '] (wordsOf p)))

/-- Concrete timestamp formatter used in closed witness statements. -/
def fmt0 : Nat → List Char := fun _ => []

/-! ### Basic lemmas about the splitting helpers -/

theorem splitOnPred_ne_nil (p : Char → Bool) : ∀ l, splitOnPred p l ≠ []
  | [] => by simp [splitOnPred]
  | c :: cs => by
    simp only [splitOnPred]
    split
    · simp
    · split <;> simp

theorem mem_of_mem_splitOnPred (p : Char → Bool) :
    ∀ (l g : List Char), g ∈ splitOnPred p l → ∀ c ∈ g, c ∈ l := by
  intro l
  induction l with
  | nil =>
    intro g hg c hc
    simp [splitOnPred] at hg
    subst hg
    simp at hc
  | cons a as ih =>
    intro g hg c hc
    simp only [splitOnPred] at hg
    split at hg
    · rcases List.mem_cons.mp hg with rfl | hg
      · simp at hc
      · exact List.mem_cons_of_mem _ (ih g hg c hc)
    · rcases hmatch : splitOnPred p as with _ | ⟨g0, gs⟩
      · exact absurd hmatch (splitOnPred_ne_nil p as)
      · rw [hmatch] at hg
        rcases List.mem_cons.mp hg with rfl | hg
        · rcases List.mem_cons.mp hc with rfl | hc
          · exact List.mem_cons_self c as
          · exact List.mem_cons_of_mem _
              (ih g0 (hmatch ▸ List.mem_cons_self g0 gs) c hc)
        · exact List.mem_cons_of_mem _
            (ih g (hmatch ▸ List.mem_cons_of_mem g0 hg) c hc)

theorem mem_of_mem_wordsOf (p w : List Char) (hw : w ∈ wordsOf p) :
    ∀ c ∈ w, c ∈ p :=
  mem_of_mem_splitOnPred jsWhitespace p w (List.mem_of_mem_filter hw)

theorem wordsOf_ne_nil (p w : List Char) (hw : w ∈ wordsOf p) : w ≠ [] := by
  have := List.of_mem_filter hw
  simpa using this

theorem mem_of_mem_paras (text p : List Char) (hp : p ∈ paras text) :
    ∀ c ∈ p, c ∈ text :=
  mem_of_mem_splitOnPred _ text p hp

/-! ### The hard-split loop -/

theorem chunksFuel_zero_width (cs : List Char) (hcs : cs ≠ []) :
    ∀ f, chunksFuel f 0 cs = none := by
  intro f
  induction f generalizing cs with
  | zero => cases cs with
    | nil => exact absurd rfl hcs
    | cons c cs' => rfl
  | succ f ih => cases cs with
    | nil => exact absurd rfl hcs
    | cons c cs' =>
      show (chunksFuel f 0 ((c :: cs').drop 0)).map _ = none
      rw [List.drop_zero, ih (c :: cs') (by simp)]
      rfl

theorem chunksFuel_congr (width : Nat) (hw : 1 ≤ width) :
    ∀ (f : Nat) (cs : List Char), cs.length ≤ f →
      chunksFuel f width cs = chunksFuel cs.length width cs := by
  intro f
  induction f using Nat.strong_induction_on with
  | _ f ih =>
    intro cs hcs
    match f, cs with
    | 0, [] => rfl
    | f + 1, [] => rfl
    | f + 1, c :: cs' =>
      show (chunksFuel f width ((c :: cs').drop width)).map _
        = (chunksFuel cs'.length width ((c :: cs').drop width)).map _
      have hdl : ((c :: cs').drop width).length ≤ cs'.length := by
        simp only [List.length_drop, List.length_cons]
        omega
      have h1 := ih f (Nat.lt_succ_self f) ((c :: cs').drop width)
        (le_trans hdl (by simpa using Nat.le_of_succ_le_succ hcs))
      have h2 := ih cs'.length
        (Nat.lt_succ_of_le (by simpa using Nat.le_of_succ_le_succ hcs))
        ((c :: cs').drop width) hdl
      rw [h1, h2]

theorem chunksFuel_isSome (width : Nat) (hw : 1 ≤ width) :
    ∀ (f : Nat) (cs : List Char), cs.length ≤ f →
      (chunksFuel f width cs).isSome := by
  intro f
  induction f generalizing width with
  | zero =>
    intro cs hcs
    rw [List.length_eq_zero.mp (Nat.le_zero.mp hcs)]
    rfl
  | succ f ih =>
    intro cs hcs
    cases cs with
    | nil => rfl
    | cons c cs' =>
      have h := ih width hw ((c :: cs').drop width)
        (by simp only [List.length_cons] at hcs; simp only [List.length_drop, List.length_cons]; omega)
      obtain ⟨v, hv⟩ := Option.isSome_iff_exists.mp h
      show ((chunksFuel f width ((c :: cs').drop width)).map _).isSome
      rw [hv]
      rfl

theorem chunksFuel_len_eq (width : Nat) (hw : 1 ≤ width) (cs : List Char) :
    chunksFuel cs.length width cs = some (chunks width cs) := by
  obtain ⟨v, hv⟩ := Option.isSome_iff_exists.mp
    (chunksFuel_isSome width hw cs.length cs le_rfl)
  rw [chunks, hv]
  rfl

theorem chunks_nil (width : Nat) : chunks width [] = [] := rfl

theorem chunks_zero (cs : List Char) : chunks 0 cs = [] := by
  cases cs with
  | nil => rfl
  | cons c cs' =>
    rw [chunks, chunksFuel_zero_width (c :: cs') (by simp)]
    rfl

theorem chunks_cons (width : Nat) (hw : 1 ≤ width) (c : Char) (cs : List Char) :
    chunks width (c :: cs) =
      (c :: cs).take width :: chunks width ((c :: cs).drop width) := by
  have hstep : chunksFuel (c :: cs).length width (c :: cs)
      = (chunksFuel cs.length width ((c :: cs).drop width)).map
        ((c :: cs).take width :: ·) := rfl
  have hdl : ((c :: cs).drop width).length ≤ cs.length := by
    simp only [List.length_drop, List.length_cons]
    omega
  rw [chunks, hstep, chunksFuel_congr width hw cs.length _ hdl,
    chunksFuel_len_eq width hw]
  rfl

theorem chunks_mem (width : Nat) (cs : List Char) :
    ∀ l ∈ chunks width cs, l.length ≤ width ∧ l ≠ [] ∧ ∀ ch ∈ l, ch ∈ cs := by
  rcases Nat.eq_zero_or_pos width with hw | hw
  · subst hw
    rw [chunks_zero]
    simp
  · generalize hn : cs.length = n
    induction n using Nat.strong_induction_on generalizing cs with
    | _ n ih =>
      cases cs with
      | nil => simp [chunks_nil]
      | cons c cs' =>
        rw [chunks_cons width hw]
        intro l hl
        rcases List.mem_cons.mp hl with rfl | hl
        · refine ⟨by simpa using Nat.min_le_left width _, ?_, ?_⟩
          · cases width with
            | zero => omega
            | succ k => simp [List.take_succ_cons]
          · intro ch hch
            exact List.mem_of_mem_take hch
        · have hlt : ((c :: cs').drop width).length < n := by
            subst hn
            simp only [List.length_drop, List.length_cons]
            omega
          have := ih ((c :: cs').drop width).length hlt _ rfl l hl
          exact ⟨this.1, this.2.1, fun ch hch => List.mem_of_mem_drop (this.2.2 ch hch)⟩

/-! ### The greedy word loop and the wrap width bound -/

theorem wrapWords_mem (width : Nat) :
    ∀ (ws : List (List Char)) (line : List Char), line.length ≤ width →
      ∀ l ∈ wrapWords width line ws,
        l.length ≤ width ∧ l ≠ [] ∧
          (∀ c ∈ l, c ∈ line ∨ c = ' ' ∨ ∃ w ∈ ws, c ∈ w) := by
  intro ws
  induction ws with
  | nil =>
    intro line hline l hl
    simp only [wrapWords] at hl
    split at hl
    · simp at hl
    · next h =>
      rw [List.mem_singleton] at hl
      subst hl
      exact ⟨hline, h, fun c hc => Or.inl hc⟩
  | cons w ws ih =>
    intro line hline l hl
    simp only [wrapWords] at hl
    by_cases hnext : (if line = [] then w else line ++ ' ' :: w).length ≤ width
    · rw [if_pos hnext] at hl
      have := ih _ hnext l hl
      refine ⟨this.1, this.2.1, fun c hc => ?_⟩
      rcases this.2.2 c hc with hc' | hc' | ⟨w', hw', hc'⟩
      · by_cases hline0 : line = []
        · rw [if_pos hline0] at hc'
          exact Or.inr (Or.inr ⟨w, List.mem_cons_self w ws, hc'⟩)
        · rw [if_neg hline0] at hc'
          rcases List.mem_append.mp hc' with h | h
          · exact Or.inl h
          · rcases List.mem_cons.mp h with rfl | h
            · exact Or.inr (Or.inl rfl)
            · exact Or.inr (Or.inr ⟨w, List.mem_cons_self w ws, h⟩)
      · exact Or.inr (Or.inl hc')
      · exact Or.inr (Or.inr ⟨w', List.mem_cons_of_mem w hw', hc'⟩)
    · rw [if_neg hnext] at hl
      have hflush : ∀ l' ∈ (if line = [] then ([] : List (List Char)) else [line]),
          l'.length ≤ width ∧ l' ≠ [] ∧
            (∀ c ∈ l', c ∈ line ∨ c = ' ' ∨ ∃ w' ∈ w :: ws, c ∈ w') := by
        intro l' hl'
        split at hl'
        · simp at hl'
        · next h =>
          rw [List.mem_singleton] at hl'
          subst hl'
          exact ⟨hline, h, fun c hc => Or.inl hc⟩
      split at hl
      · rcases List.mem_append.mp hl with hl | hl
        · rcases List.mem_append.mp hl with hl | hl
          · exact hflush l hl
          · have := chunks_mem width w l hl
            exact ⟨this.1, this.2.1, fun c hc =>
              Or.inr (Or.inr ⟨w, List.mem_cons_self w ws, this.2.2 c hc⟩)⟩
        · have := ih [] (by simp) l hl
          refine ⟨this.1, this.2.1, fun c hc => ?_⟩
          rcases this.2.2 c hc with hc' | hc' | ⟨w', hw', hc'⟩
          · simp at hc'
          · exact Or.inr (Or.inl hc')
          · exact Or.inr (Or.inr ⟨w', List.mem_cons_of_mem w hw', hc'⟩)
      · next hlong =>
        rcases List.mem_append.mp hl with hl | hl
        · exact hflush l hl
        · have hwlen : w.length ≤ width := by omega
          have := ih w hwlen l hl
          refine ⟨this.1, this.2.1, fun c hc => ?_⟩
          rcases this.2.2 c hc with hc' | hc' | ⟨w', hw', hc'⟩
          · exact Or.inr (Or.inr ⟨w, List.mem_cons_self w ws, hc'⟩)
          · exact Or.inr (Or.inl hc')
          · exact Or.inr (Or.inr ⟨w', List.mem_cons_of_mem w hw', hc'⟩)

theorem mem_wrapParas (width : Nat) (lst : Option (List Char)) :
    ∀ (ps : List (List Char)), ∀ l ∈ wrapParas width lst ps,
      l = [] ∨ ∃ p ∈ ps, l ∈ wrapWords width [] (wordsOf p) := by
  intro ps
  induction ps with
  | nil => simp [wrapParas]
  | cons p ps ih =>
    intro l hl
    simp only [wrapParas] at hl
    rcases List.mem_append.mp hl with hl | hl
    · rcases List.mem_append.mp hl with hl | hl
      · exact Or.inr ⟨p, List.mem_cons_self p ps, hl⟩
      · left
        split at hl <;> simpa using hl
    · rcases ih l hl with h | ⟨p', hp', hl'⟩
      · exact Or.inl h
      · exact Or.inr ⟨p', List.mem_cons_of_mem p hp', hl'⟩

theorem wrapText_mem (text : List Char) (width : Nat) :
    ∀ l ∈ wrapText text width,
      l.length ≤ width ∧ ∀ c ∈ l, c ∈ text ∨ c = ' ' := by
  intro l hl
  rcases mem_wrapParas width (paras text).getLast? (paras text) l hl with rfl | ⟨p, hp, hl'⟩
  · exact ⟨by simp, by simp⟩
  · have hm := wrapWords_mem width (wordsOf p) [] (by simp) l hl'
    refine ⟨hm.1, fun c hc => ?_⟩
    rcases hm.2.2 c hc with h | h | ⟨w, hw, hcw⟩
    · simp at h
    · exact Or.inr h
    · exact Or.inl (mem_of_mem_paras text p hp c (mem_of_mem_wordsOf p w hw c hcw))

/-! ### Lemmas about stripTags -/

theorem stripTagsFuel_congr :
    ∀ (f : Nat) (cs : List Char), cs.length ≤ f →
      stripTagsFuel f cs = stripTagsFuel cs.length cs := by
  intro f
  induction f using Nat.strong_induction_on with
  | _ f ih =>
    intro cs hcs
    match f, cs with
    | 0, [] => rfl
    | 0, c :: rest => simp at hcs
    | f + 1, [] => rfl
    | f + 1, c :: rest =>
      have hlen : rest.length ≤ f := by
        simp only [List.length_cons] at hcs
        omega
      by_cases hc : c = '{'
      · subst hc
        rcases hdw : rest.dropWhile (fun d => d ≠ '}') with _ | ⟨d, tail⟩ <;>
          rcases htk : rest.takeWhile (fun d => d ≠ '}') with _ | ⟨b, body⟩ <;>
          simp only [stripTagsFuel, if_pos rfl, hdw, htk]
        · rw [ih f (Nat.lt_succ_self f) rest hlen,
            ih rest.length (Nat.lt_succ_of_le hlen) rest le_rfl]
        · rw [ih f (Nat.lt_succ_self f) rest hlen,
            ih rest.length (Nat.lt_succ_of_le hlen) rest le_rfl]
        · rw [ih f (Nat.lt_succ_self f) rest hlen,
            ih rest.length (Nat.lt_succ_of_le hlen) rest le_rfl]
        · have htail : tail.length ≤ rest.length := by
            have := (List.dropWhile_sublist (l := rest) (fun d => d ≠ '}')).length_le
            rw [hdw] at this
            simp only [List.length_cons] at this
            omega
          rw [ih f (Nat.lt_succ_self f) tail (le_trans htail hlen),
            ih rest.length (Nat.lt_succ_of_le hlen) tail htail]
          simp
      · simp only [stripTagsFuel, if_neg hc]
        rw [ih f (Nat.lt_succ_self f) rest hlen,
          ih rest.length (Nat.lt_succ_of_le hlen) rest le_rfl]

theorem stripTags_cons_of_ne (c : Char) (cs : List Char) (hc : c ≠ '{') :
    stripTags (c :: cs) = c :: stripTags cs := by
  show stripTagsFuel (cs.length + 1) (c :: cs) = c :: stripTagsFuel cs.length cs
  simp only [stripTagsFuel, if_neg hc]

theorem stripTagsFuel_length_le :
    ∀ (f : Nat) (cs : List Char), (stripTagsFuel f cs).length ≤ cs.length := by
  intro f
  induction f using Nat.strong_induction_on with
  | _ f ih =>
    intro cs
    match f, cs with
    | 0, cs => exact le_rfl
    | f + 1, [] => simp [stripTagsFuel]
    | f + 1, c :: rest =>
      by_cases hc : c = '{'
      · subst hc
        rcases hdw : rest.dropWhile (fun d => d ≠ '}') with _ | ⟨d, tail⟩ <;>
          rcases htk : rest.takeWhile (fun d => d ≠ '}') with _ | ⟨b, body⟩ <;>
          simp only [stripTagsFuel, if_pos rfl, hdw, htk, List.length_cons]
        · exact Nat.succ_le_succ (ih f (Nat.lt_succ_self f) rest)
        · exact Nat.succ_le_succ (ih f (Nat.lt_succ_self f) rest)
        · exact Nat.succ_le_succ (ih f (Nat.lt_succ_self f) rest)
        · have htail : tail.length ≤ rest.length := by
            have := (List.dropWhile_sublist (l := rest) (fun d => d ≠ '}')).length_le
            rw [hdw] at this
            simp only [List.length_cons] at this
            omega
          exact le_trans (ih f (Nat.lt_succ_self f) tail)
            (le_trans htail (Nat.le_succ _))
      · simp only [stripTagsFuel, if_neg hc, List.length_cons]
        exact Nat.succ_le_succ (ih f (Nat.lt_succ_self f) rest)

theorem stripTags_length_le (cs : List Char) :
    (stripTags cs).length ≤ cs.length :=
  stripTagsFuel_length_le cs.length cs

theorem takeWhile_append_eq (p : Char → Bool) :
    ∀ (xs : List Char), (∀ a ∈ xs, p a = true) → ∀ (y : Char) (ys : List Char),
      p y = false →
      (xs ++ y :: ys).takeWhile p = xs ∧ (xs ++ y :: ys).dropWhile p = y :: ys := by
  intro xs
  induction xs with
  | nil =>
    intro _ y ys hy
    simp [List.takeWhile_cons, List.dropWhile_cons, hy]
  | cons a as ih =>
    intro hall y ys hy
    have ha : p a = true := hall a (List.mem_cons_self a as)
    have ⟨h1, h2⟩ := ih (fun b hb => hall b (List.mem_cons_of_mem a hb)) y ys hy
    constructor
    · simp only [List.cons_append, List.takeWhile_cons, ha, if_true, h1]
    · simp only [List.cons_append, List.dropWhile_cons, ha, if_true, h2]

theorem stripTags_tag (body rest : List Char) (hb : body ≠ [])
    (hnb : '}' ∉ body) :
    stripTags ('{' :: (body ++ '}' :: rest)) = stripTags rest := by
  have hall : ∀ a ∈ body, (fun d => decide (d ≠ '}')) a = true := by
    intro a ha
    have hne : a ≠ '}' := fun h => hnb (h ▸ ha)
    simp [hne]
  have hy : (fun d => decide (d ≠ '}')) '}' = false := by simp
  obtain ⟨htk, hdw⟩ := takeWhile_append_eq _ body hall '}' rest hy
  show stripTagsFuel ((body ++ '}' :: rest).length + 1)
    ('{' :: (body ++ '}' :: rest)) = _
  rcases body with _ | ⟨b, body'⟩
  · exact absurd rfl hb
  · simp only [stripTagsFuel, if_pos rfl, htk, hdw]
    have : rest.length ≤ (b :: body' ++ '}' :: rest).length := by
      simp only [List.length_append, List.length_cons]
      omega
    rw [stripTagsFuel_congr _ rest this]
    simp [stripTags]

theorem stripTags_of_no_open : ∀ (cs : List Char), '{' ∉ cs → stripTags cs = cs := by
  intro cs
  induction cs with
  | nil => intro _; rfl
  | cons c rest ih =>
    intro h
    rw [stripTags_cons_of_ne c rest (fun hc => h (hc ▸ List.mem_cons_self c rest)),
      ih (fun hc => h (List.mem_cons_of_mem c hc))]

theorem stripTags_append_close :
    ∀ (core rest : List Char), '{' ∉ core →
      stripTags (core ++ '{' :: '/' :: '}' :: rest) = core ++ stripTags rest := by
  intro core
  induction core with
  | nil =>
    intro rest _
    show stripTags ('{' :: (['/'] ++ '}' :: rest)) = stripTags rest
    exact stripTags_tag ['/'] rest (by simp) (by decide)
  | cons c core' ih =>
    intro rest h
    rw [List.cons_append,
      stripTags_cons_of_ne c _ (fun hc => h (hc ▸ List.mem_cons_self c core')),
      ih rest (fun hc => h (List.mem_cons_of_mem c hc))]
    rfl

theorem stripTags_styleOpen (s : Sender) (rest : List Char) :
    stripTags (styleOpen s ++ rest) = stripTags rest := by
  cases s with
  | me =>
    show stripTags
      ('{' :: (['c', 'y', 'a', 'n', '-', 'f', 'g'] ++ '}' :: rest)) = _
    exact stripTags_tag _ rest (by simp) (by decide)
  | them =>
    show stripTags
      ('{' :: (['l', 'i', 'g', 'h', 't', '-', 'g', 'r', 'a', 'y', '-', 'f', 'g']
        ++ '}' :: rest)) = _
    exact stripTags_tag _ rest (by simp) (by decide)
  | system =>
    show stripTags
      ('{' :: (['g', 'r', 'e', 'e', 'n', '-', 'f', 'g'] ++ '}' :: rest)) = _
    exact stripTags_tag _ rest (by simp) (by decide)

/-! ### Claim C1: wrap width bound -/

/-- Claim C1: for every input string and every target width ≥ 10, every
line produced by `wrapText` has visible length at most the target width. -/
theorem wrap_width_bound (text : List Char) (width : Nat) (h : 10 ≤ width) :
    ∀ l ∈ wrapText text width, (stripTags l).length ≤ width := by
  intro l hl
  exact le_trans (stripTags_length_le l) (wrapText_mem text width l hl).1

/-- Witness for `wrap_width_bound` at a concrete input. -/
theorem wrap_width_bound_witness :
    10 ≤ 12 ∧ ∀ l ∈ wrapText "hello wrapped world".toList 12,
      (stripTags l).length ≤ 12 :=
  ⟨by decide, wrap_width_bound "hello wrapped world".toList 12 (by decide)⟩

/-! ### Claims C8 and C3: the inner-width clamp and the total width bound -/

theorem maxInnerI_ge (mw : Int) : 10 ≤ maxInnerI mw :=
  le_max_left _ _

theorem maxInnerN_ge (mw : Int) : 10 ≤ maxInnerN mw := by
  have := maxInnerI_ge mw
  unfold maxInnerN
  omega

theorem maxInnerI_eq (mw : Int) : maxInnerI mw = max 10 (mw - 4) := by
  unfold maxInnerI clamp innerPadX
  norm_num
  omega

/-- Claim C8: for every requested maximum width, including widths below 1,
the inner content width is `clamp(maxWidth - 4, 10, maxWidth)` and is
always at least 10, so `bubbleContent` always invokes the text wrapper
with a width of at least 10. -/
theorem maxInner_floor (maxWidth : Int) :
    maxInnerI maxWidth = clamp (maxWidth - 2 - 2 * (innerPadX : Int)) 10 maxWidth ∧
      maxInnerI maxWidth = clamp (maxWidth - 4) 10 maxWidth ∧
      10 ≤ maxInnerI maxWidth ∧ 10 ≤ maxInnerN maxWidth ∧
      bubbleContent "".toList maxWidth = wrapText [] (maxInnerN maxWidth) := by
  refine ⟨rfl, ?_, maxInnerI_ge maxWidth, maxInnerN_ge maxWidth, rfl⟩
  unfold maxInnerI clamp innerPadX
  norm_num
  omega

/-- Claim C3 counterexample: at requested maximum width 10, a
ten-character message yields a bubble of total rendered width 14, which
exceeds the requested maximum. -/
theorem bubble_width_exceeds_max :
    ¬ ((bubbleLines fmt0 Sender.me "0123456789".toList 0 10).width ≤ 10) := by
  decide

/-- Claim C3 amended: the bubble's total rendered width never exceeds
`max maxWidth 14` — the bound `maxWidth` claimed by the spec holds
whenever `maxWidth ≥ 14`, but the clamp floor of 10 on the inner width
allows a total of up to 14 for smaller requests. -/
theorem bubble_width_le_max (fmt : Nat → List Char) (sender : Sender)
    (text : List Char) (ts : Nat) (maxWidth : Int) :
    ((bubbleLines fmt sender text ts maxWidth).width : Int) ≤ max maxWidth 14 := by
  have hw : (bubbleLines fmt sender text ts maxWidth).width
      = contentWidth text maxWidth + 2 * innerPadX + 2 := rfl
  have h1 : contentWidth text maxWidth ≤ maxInnerN maxWidth :=
    Nat.min_le_left _ _
  have h2 : maxInnerI maxWidth = max 10 (maxWidth - 4) := maxInnerI_eq maxWidth
  have h3 : 10 ≤ maxInnerI maxWidth := maxInnerI_ge maxWidth
  rw [hw]
  unfold maxInnerN at h1
  unfold innerPadX
  push_cast
  omega

/-! ### Claim C7: append-only message sequence -/

/-- Apply a sequence of `addMessage` calls, each supplying the fresh id
and current timestamp the environment would provide. -/
def applyCalls (st : ChatState) (calls : List (Nat × Nat × Sender × List Char)) :
    ChatState :=
  calls.foldl (fun s c => addMessage c.1 c.2.1 c.2.2.1 c.2.2.2 s) st

/-- The message one `addMessage` call constructs. -/
def mkMsg (c : Nat × Nat × Sender × List Char) : Msg :=
  ⟨c.1, c.2.2.1, c.2.2.2, c.2.1⟩

/-- Claim C7: a sequence of N `addMessage` calls appends exactly the N
messages, in call order, carrying the given senders and texts, leaving
every previously stored message unchanged; from any starting state the
length grows by exactly N. -/
theorem addMessage_append_only (st : ChatState)
    (calls : List (Nat × Nat × Sender × List Char)) :
    (applyCalls st calls).messages = st.messages ++ calls.map mkMsg ∧
      (applyCalls st calls).messages.length
        = st.messages.length + calls.length := by
  have h : ∀ (st' : ChatState),
      (applyCalls st' calls).messages = st'.messages ++ calls.map mkMsg := by
    induction calls with
    | nil => intro st'; simp [applyCalls]
    | cons c cs ih =>
      intro st'
      show (applyCalls (addMessage c.1 c.2.1 c.2.2.1 c.2.2.2 st') cs).messages = _
      rw [ih]
      simp [addMessage, mkMsg]
  exact ⟨h st, by rw [h st]; simp⟩

/-! ### Claim C2: paragraph separators -/

/-- Claim C2 (evaluation at the failing input): the source's separator
check compares each paragraph's text with the last paragraph's text, so
wrapping `"a\na"` at width 20 yields `["a", "a"]` with no blank separator
between the two paragraphs, while the claimed spec requires
`["a", "", "a"]`; the claim's own example `"a b\n\nc"` does come out as
`["a b", "", "", "c"]`. -/
theorem wrapText_paragraph_separator_eval :
    wrapText "a\na".toList 20 = [['a'], ['a']] ∧
      wrapText "a b\n\nc".toList 20 = [['a', ' ', 'b'], [], [], ['c']] :=
  ⟨by decide, by decide⟩

/-! ### Claim C10: termination of the wrapper -/

theorem wrapWordsF_eq (width : Nat) (hw : 1 ≤ width) :
    ∀ (ws : List (List Char)) (line : List Char),
      wrapWordsF width line ws = some (wrapWords width line ws) := by
  intro ws
  induction ws with
  | nil => intro line; rfl
  | cons w ws ih =>
    intro line
    simp only [wrapWordsF, wrapWords]
    by_cases hnext : (if line = [] then w else line ++ ' ' :: w).length ≤ width
    · rw [if_pos hnext, if_pos hnext, ih]
    · rw [if_neg hnext, if_neg hnext]
      by_cases hlong : width < w.length
      · rw [if_pos hlong, if_pos hlong, chunksFuel_len_eq width hw w, ih []]
      · rw [if_neg hlong, if_neg hlong, ih w]
        rfl

theorem wrapParasF_eq (width : Nat) (hw : 1 ≤ width) (lst : Option (List Char)) :
    ∀ (ps : List (List Char)),
      wrapParasF width lst ps = some (wrapParas width lst ps) := by
  intro ps
  induction ps with
  | nil => rfl
  | cons p ps ih =>
    simp only [wrapParasF, wrapParas]
    rw [wrapWordsF_eq width hw, ih]

/-- Claim C10: for every input and every width ≥ 1 the wrapper's loops all
finish — the fuelled model, whose hard-split loop gets one step per
character of the overlong word, returns the total function's value; and
without the precondition the hard-split loop is genuinely non-well-founded:
at width 0 it exhausts every finite step budget on any non-empty word. -/
theorem wrapText_terminates (text : List Char) (width : Nat) (h : 1 ≤ width) :
    wrapTextF text width = some (wrapText text width) ∧
      ∀ (f : Nat) (cs : List Char), cs ≠ [] → chunksFuel f 0 cs = none :=
  ⟨wrapParasF_eq width h _ _, fun f cs hcs => chunksFuel_zero_width cs hcs f⟩

/-- Witness for `wrapText_terminates`: a width-1 wrap that exercises the
hard-split loop. -/
theorem wrapText_terminates_witness :
    1 ≤ 1 ∧
      (wrapTextF "ab c".toList 1 = some (wrapText "ab c".toList 1) ∧
        ∀ (f : Nat) (cs : List Char), cs ≠ [] → chunksFuel f 0 cs = none) :=
  ⟨by decide, wrapText_terminates "ab c".toList 1 (by decide)⟩

/-! ### Claim C6: typing-timer idempotence -/

/-- The timer invariant: the typing flag mirrors the stored interval
handle, the event loop holds exactly one live timer when a handle is
stored and none otherwise, and the animation frame is 0 while inactive. -/
def TimerInv (st : ChatState) : Prop :=
  st.typing = st.typingAnim.isSome ∧
    st.liveTimers = (if st.typingAnim.isSome then 1 else 0) ∧
    (st.typing = false → st.typingFrame = 0)

theorem reachable_timerInv {st : ChatState} (h : Reachable st) : TimerInv st := by
  induction h with
  | init => exact ⟨rfl, rfl, fun _ => rfl⟩
  | add id ts sender text h ih => exact ⟨ih.1, ih.2.1, ih.2.2⟩
  | toggle active h ih =>
    rename_i st'
    obtain ⟨h1, h2, h3⟩ := ih
    rcases st' with ⟨msgs, typing, anim, frame, live⟩
    cases active <;> cases anim <;> simp_all [TimerInv, setTyping]
  | tick h hlive ih =>
    rename_i st'
    obtain ⟨h1, h2, h3⟩ := ih
    refine ⟨h1, h2, fun hc => ?_⟩
    exfalso
    simp only [tickState] at hc
    rw [h1] at hc
    simp [hc] at h2
    omega

/-- Claim C6: starting the typing indicator twice leaves the state of the
single start (no second timer); stopping always cancels the outstanding
timer, clears the handle and resets the frame; at most one timer is ever
live; and stopping while already inactive changes nothing. -/
theorem setTyping_idempotent {st : ChatState} (h : Reachable st) :
    setTyping true (setTyping true st) = setTyping true st ∧
      (setTyping true st).liveTimers = 1 ∧
      st.liveTimers ≤ 1 ∧
      (setTyping false st).typingAnim = none ∧
      (setTyping false st).typingFrame = 0 ∧
      (setTyping false st).liveTimers = 0 ∧
      (st.typing = false → setTyping false st = st) := by
  obtain ⟨h1, h2, h3⟩ := reachable_timerInv h
  rcases st with ⟨msgs, typing, anim, frame, live⟩
  cases anim with
  | none =>
    have ht : typing = false := by simpa using h1
    have hl : live = 0 := by simpa using h2
    have hf : frame = 0 := h3 ht
    subst ht hl hf
    exact ⟨rfl, rfl, Nat.zero_le 1, rfl, rfl, rfl, fun _ => rfl⟩
  | some u =>
    cases u
    have ht : typing = true := by simpa using h1
    have hl : live = 1 := by simpa using h2
    subst ht hl
    exact ⟨rfl, rfl, le_rfl, rfl, rfl, rfl, fun hc => by simp at hc⟩

/-- Witness for `setTyping_idempotent` at the initial state. -/
theorem setTyping_idempotent_witness :
    setTyping true (setTyping true initState) = setTyping true initState ∧
      (setTyping true initState).liveTimers = 1 ∧
      initState.liveTimers ≤ 1 ∧
      (setTyping false initState).typingAnim = none ∧
      (setTyping false initState).typingFrame = 0 ∧
      (setTyping false initState).liveTimers = 0 ∧
      (initState.typing = false → setTyping false initState = initState) :=
  setTyping_idempotent Reachable.init

/-! ### Claim C5: the typing indicator -/

theorem wrapWords_single (width : Nat) (w : List Char) (hw : w ≠ [])
    (hlen : w.length ≤ width) : wrapWords width [] [w] = [w] := by
  have h0 : (if ([] : List Char) = [] then w else [] ++ ' ' :: w) = w :=
    if_pos rfl
  simp [wrapWords, hlen, hw]

theorem typing_glyph_content (k width : Nat) (hw : 3 ≤ width) :
    wrapText (dotsGlyph (k % 4)) width
      = if k % 4 = 0 then [] else [List.replicate (k % 4) '.'] := by
  have h4 : k % 4 < 4 := Nat.mod_lt _ (by omega)
  set m := k % 4 with hm
  interval_cases m
  · rfl
  · show wrapParas width (paras (dotsGlyph 1)).getLast? (paras (dotsGlyph 1))
      = [List.replicate 1 '.']
    have hp : paras (dotsGlyph 1) = [['.', ' ', ' ']] := rfl
    rw [hp]
    show wrapWords width [] (wordsOf ['.', ' ', ' ']) ++ _ ++ _ = _
    rw [show wordsOf ['.', ' ', ' '] = [['.']] from rfl,
      wrapWords_single width ['.'] (by simp) (by simp; omega)]
    simp [wrapParas]
  · show wrapParas width (paras (dotsGlyph 2)).getLast? (paras (dotsGlyph 2))
      = [List.replicate 2 '.']
    have hp : paras (dotsGlyph 2) = [['.', '.', ' ']] := rfl
    rw [hp]
    show wrapWords width [] (wordsOf ['.', '.', ' ']) ++ _ ++ _ = _
    rw [show wordsOf ['.', '.', ' '] = [['.', '.']] from rfl,
      wrapWords_single width ['.', '.'] (by simp) (by simp; omega)]
    simp [wrapParas]
  · show wrapParas width (paras (dotsGlyph 3)).getLast? (paras (dotsGlyph 3))
      = [List.replicate 3 '.']
    have hp : paras (dotsGlyph 3) = [['.', '.', '.']] := rfl
    rw [hp]
    show wrapWords width [] (wordsOf ['.', '.', '.']) ++ _ ++ _ = _
    rw [show wordsOf ['.', '.', '.'] = [['.', '.', '.']] from rfl,
      wrapWords_single width ['.', '.', '.'] (by simp) (by simp; omega)]
    simp [wrapParas]

/-- Claim C5: while the typing flag is set, the rendered output is the
message layout followed by the synthetic typing bubble for sender
`them` — built at a maximum width capped at 18 columns, left-aligned with
a one-column indent, and ending in the block's blank separator; the
bubble's wrapped content is exactly the animation glyph selected by
`typingFrame % 4` (no content lines for the empty glyph, one line of
`typingFrame % 4` dots otherwise); and a render after `setTyping false`
contains no typing block at all. -/
theorem typing_indicator_render (fmt : Nat → List Char) (now now' : Nat)
    (st : ChatState) (W : Nat) (h : st.typing = true) :
    render fmt now st W
        = renderMsgs fmt W st.messages ++
            ((bubbleLines fmt Sender.them (dotsGlyph (st.typingFrame % 4)) now
              (min 18 (maxBubble W) : Int)).lines.map (fun l => ' ' :: l) ++ [[]]) ∧
      bubbleContent (dotsGlyph (st.typingFrame % 4)) (min 18 (maxBubble W) : Int)
        = (if st.typingFrame % 4 = 0 then []
            else [List.replicate (st.typingFrame % 4) '.']) ∧
      render fmt now' (setTyping false st) W = renderMsgs fmt W st.messages := by
  refine ⟨?_, ?_, ?_⟩
  · simp [render, typingBlock, h]
  · show wrapText (dotsGlyph (st.typingFrame % 4))
      (maxInnerN (min 18 (maxBubble W) : Int)) = _
    refine typing_glyph_content st.typingFrame _ ?_
    have := maxInnerN_ge (min 18 (maxBubble W) : Int)
    omega
  · have hmsgs : (setTyping false st).messages = st.messages := rfl
    have hft : (setTyping false st).typing = false := rfl
    simp [render, hmsgs, hft]

/-- Witness for `typing_indicator_render` at a concrete typing state. -/
theorem typing_indicator_render_witness :
    render fmt0 0 ⟨[], true, some (), 2, 1⟩ 80
        = renderMsgs fmt0 80 [] ++
            ((bubbleLines fmt0 Sender.them (dotsGlyph (2 % 4)) 0
              (min 18 (maxBubble 80) : Int)).lines.map (fun l => ' ' :: l) ++ [[]]) ∧
      bubbleContent (dotsGlyph (2 % 4)) (min 18 (maxBubble 80) : Int)
        = (if 2 % 4 = 0 then [] else [List.replicate (2 % 4) '.']) ∧
      render fmt0 1 (setTyping false ⟨[], true, some (), 2, 1⟩) 80
        = renderMsgs fmt0 80 [] :=
  typing_indicator_render fmt0 0 1 ⟨[], true, some (), 2, 1⟩ 80 rfl

/-! ### Claim C9: uniform visible width of the bubble block -/

theorem le_foldr_max (b : Nat) :
    ∀ (L : List Nat), ∀ x ∈ L, x ≤ L.foldr max b := by
  intro L
  induction L with
  | nil => simp
  | cons a as ih =>
    intro x hx
    rcases List.mem_cons.mp hx with rfl | hx
    · exact le_max_left _ _
    · exact le_trans (ih x hx) (le_max_right _ _)

theorem stripTags_decorate (s : Sender) (m : List Char) (hm : '{' ∉ m) :
    stripTags (decorate s m) = m := by
  unfold decorate
  rw [List.append_assoc, stripTags_styleOpen s]
  show stripTags (m ++ '{' :: '/' :: '}' :: []) = m
  rw [stripTags_append_close m [] hm]
  simp [stripTags]
  rfl

theorem not_open_topBorder (cw : Nat) : '{' ∉ topBorder cw := by
  intro hm
  have h1 : ('{' : Char) ≠ '╭' := by decide
  have h2 : ('{' : Char) ≠ '─' := by decide
  have h3 : ('{' : Char) ≠ '╮' := by decide
  simp [topBorder, h1, h2, h3, List.mem_replicate] at hm

theorem not_open_botBorder (cw : Nat) : '{' ∉ botBorder cw := by
  intro hm
  have h1 : ('{' : Char) ≠ '╰' := by decide
  have h2 : ('{' : Char) ≠ '─' := by decide
  have h3 : ('{' : Char) ≠ '╯' := by decide
  simp [botBorder, h1, h2, h3, List.mem_replicate] at hm

theorem not_open_middleLine (cw : Nat) (l : List Char) (hl : '{' ∉ l) :
    '{' ∉ middleLine cw l := by
  intro hm
  have h1 : ('{' : Char) ≠ '│' := by decide
  have h2 : ('{' : Char) ≠ ' ' := by decide
  simp [middleLine, h1, h2, List.mem_replicate] at hm
  exact hl hm

/-- Claim C9 counterexample: for the message text `"\x7babc"` (an
unmatched opening brace) at maximum width 80, the first content line's
stripped markup swallows the line's own border and padding, so its
visible length differs from the bubble's returned total width. -/
theorem bubble_line_width_mismatch :
    (stripTags ((bubbleLines fmt0 Sender.me "\x7babc".toList 0 80).lines.getD 1 [])).length
      ≠ (bubbleLines fmt0 Sender.me "\x7babc".toList 0 80).width := by
  decide

/-- Claim C9 amended: for message text free of opening braces (so the
only markup on a line is the single sender style span the formatter adds
itself), the bubble block consists of exactly one top border line, one
line per wrapped content line, one bottom border line and one timestamp
line, and every line from the top border through the bottom border has
visible length equal to the bubble's returned total width. -/
theorem bubble_uniform_width (fmt : Nat → List Char) (sender : Sender)
    (text : List Char) (ts : Nat) (maxWidth : Int) (h : '{' ∉ text) :
    (bubbleLines fmt sender text ts maxWidth).lines.length
        = (bubbleContent text maxWidth).length + 3 ∧
      ∀ l ∈ (bubbleLines fmt sender text ts maxWidth).lines.dropLast,
        (stripTags l).length = (bubbleLines fmt sender text ts maxWidth).width := by
  set cw := contentWidth text maxWidth with hcwdef
  constructor
  · simp [bubbleLines]
  · have hre : (bubbleLines fmt sender text ts maxWidth).lines
        = (decorate sender (topBorder cw) ::
            ((bubbleContent text maxWidth).map
              (fun l => decorate sender (middleLine cw l)) ++
              [decorate sender (botBorder cw)])) ++ [tsLine fmt ts] := by
      simp [bubbleLines]
    rw [hre, List.dropLast_concat]
    intro l hl
    rcases List.mem_cons.mp hl with rfl | hl
    · rw [stripTags_decorate sender _ (not_open_topBorder cw)]
      show (topBorder cw).length = cw + 2 * innerPadX + 2
      simp [topBorder]
    · rcases List.mem_append.mp hl with hl | hl
      · obtain ⟨c, hc, rfl⟩ := List.mem_map.mp hl
        have hcno : '{' ∉ c := by
          intro hm
          rcases (wrapText_mem text (maxInnerN maxWidth) c hc).2 '{' hm with h' | h'
          · exact h h'
          · exact absurd h' (by decide)
        have hstrip : stripTags c = c := stripTags_of_no_open c hcno
        have hlen1 : c.length ≤ maxInnerN maxWidth :=
          (wrapText_mem text (maxInnerN maxWidth) c hc).1
        have hlen2 : c.length ≤ ((bubbleContent text maxWidth).map
            (fun l => (stripTags l).length)).foldr max 1 := by
          have hmem : (stripTags c).length ∈ (bubbleContent text maxWidth).map
              (fun l => (stripTags l).length) := List.mem_map_of_mem _ hc
          rw [hstrip] at hmem
          exact le_foldr_max 1 _ _ hmem
        have hcw' : c.length ≤ cw := le_min hlen1 hlen2
        rw [stripTags_decorate sender _ (not_open_middleLine cw c hcno)]
        show (middleLine cw c).length = cw + 2 * innerPadX + 2
        simp [middleLine, hstrip]
        omega
      · rw [List.mem_singleton] at hl
        subst hl
        rw [stripTags_decorate sender _ (not_open_botBorder cw)]
        show (botBorder cw).length = cw + 2 * innerPadX + 2
        simp [botBorder]

/-- Witness for `bubble_uniform_width` at a concrete brace-free message. -/
theorem bubble_uniform_width_witness :
    (bubbleLines fmt0 Sender.me "hi".toList 0 80).lines.length
        = (bubbleContent "hi".toList 80).length + 3 ∧
      ∀ l ∈ (bubbleLines fmt0 Sender.me "hi".toList 0 80).lines.dropLast,
        (stripTags l).length = (bubbleLines fmt0 Sender.me "hi".toList 0 80).width :=
  bubble_uniform_width fmt0 Sender.me "hi".toList 0 80 (by decide)

/-! ### Claim C4: loose reversibility of the wrapper -/

theorem glue_nil_right (l : List Char) : glue l [] = l := by
  unfold glue
  split
  · next h => rw [h]
  · rw [if_pos rfl]

theorem glue_assoc (l w r : List Char) (hw : w ≠ []) :
    glue (glue l w) r = glue l (glue w r) := by
  by_cases hl : l = [] <;> by_cases hr : r = [] <;>
    simp [glue, hl, hr, hw]

theorem paraJoin_ne_nil (L : List (List Char)) (hL : ∀ l ∈ L, l ≠ [])
    (h0 : L ≠ []) : paraJoin L ≠ [] := by
  cases L with
  | nil => exact absurd rfl h0
  | cons a as =>
    have ha : a ≠ [] := hL a (List.mem_cons_self a as)
    show glue a (paraJoin as) ≠ []
    unfold glue
    rw [if_neg ha]
    split
    · exact ha
    · simp

theorem unwrap_all_ne (L : List (List Char)) (hL : ∀ l ∈ L, l ≠ []) :
    unwrap L = paraJoin L := by
  induction L with
  | nil => rfl
  | cons a as ih =>
    have ha := hL a (List.mem_cons_self a as)
    have has : ∀ l ∈ as, l ≠ [] := fun l hl => hL l (List.mem_cons_of_mem a hl)
    rcases a with _ | ⟨c, cs⟩
    · exact absurd rfl ha
    · cases as with
      | nil =>
        show (c :: cs) ++ unwrap [] = paraJoin [c :: cs]
        show (c :: cs) ++ [] = glue (c :: cs) []
        rw [List.append_nil, glue_nil_right]
      | cons b bs =>
        have hb := has b (List.mem_cons_self b bs)
        rcases b with _ | ⟨d, ds⟩
        · exact absurd rfl hb
        · show (c :: cs) ++ ' ' :: unwrap ((d :: ds) :: bs)
            = glue (c :: cs) (paraJoin ((d :: ds) :: bs))
          rw [ih has]
          have hpj : paraJoin ((d :: ds) :: bs) ≠ [] :=
            paraJoin_ne_nil _ has (by simp)
          unfold glue
          rw [if_neg (by simp : (c :: cs : List Char) ≠ []), if_neg hpj]

theorem unwrap_group (L rest : List (List Char)) (hL : ∀ l ∈ L, l ≠ []) :
    unwrap (L ++ [] :: rest) = paraJoin L ++ '\n' :: unwrap rest := by
  induction L with
  | nil => rfl
  | cons a as ih =>
    have ha := hL a (List.mem_cons_self a as)
    have has : ∀ l ∈ as, l ≠ [] := fun l hl => hL l (List.mem_cons_of_mem a hl)
    rcases a with _ | ⟨c, cs⟩
    · exact absurd rfl ha
    · cases as with
      | nil =>
        show (c :: cs) ++ unwrap ([] :: rest)
          = glue (c :: cs) [] ++ '\n' :: unwrap rest
        rw [glue_nil_right]
        rfl
      | cons b bs =>
        have hb := has b (List.mem_cons_self b bs)
        rcases b with _ | ⟨d, ds⟩
        · exact absurd rfl hb
        · show (c :: cs) ++ ' ' :: unwrap (((d :: ds) :: bs) ++ [] :: rest)
            = glue (c :: cs) (paraJoin ((d :: ds) :: bs)) ++ '\n' :: unwrap rest
          rw [ih has]
          have hpj : paraJoin ((d :: ds) :: bs) ≠ [] :=
            paraJoin_ne_nil _ has (by simp)
          unfold glue
          rw [if_neg (by simp : (c :: cs : List Char) ≠ []), if_neg hpj]
          simp

theorem wrapWords_paraJoin (width : Nat) :
    ∀ (ws : List (List Char)) (line : List Char),
      (∀ w ∈ ws, w ≠ [] ∧ w.length ≤ width) → line.length ≤ width →
      paraJoin (wrapWords width line ws) = glue line (paraJoin ws) := by
  intro ws
  induction ws with
  | nil =>
    intro line hws hline
    show paraJoin (if line = [] then [] else [line]) = glue line []
    rw [glue_nil_right]
    by_cases hl : line = []
    · rw [if_pos hl, hl]
      rfl
    · rw [if_neg hl]
      show glue line (paraJoin []) = line
      exact glue_nil_right line
  | cons w ws ih =>
    intro line hws hline
    obtain ⟨hwne, hwlen⟩ := hws w (List.mem_cons_self w ws)
    have hws' : ∀ w' ∈ ws, w' ≠ [] ∧ w'.length ≤ width :=
      fun w' h' => hws w' (List.mem_cons_of_mem w h')
    simp only [wrapWords]
    by_cases hnext : (if line = [] then w else line ++ ' ' :: w).length ≤ width
    · rw [if_pos hnext, ih _ hws' hnext]
      have hgl : (if line = [] then w else line ++ ' ' :: w) = glue line w := by
        by_cases hl : line = [] <;> simp [glue, hl, hwne]
      rw [hgl, glue_assoc line w (paraJoin ws) hwne]
      rfl
    · rw [if_neg hnext]
      have hlong : ¬ (width < w.length) := by omega
      rw [if_neg hlong]
      have hlne : line ≠ [] := by
        intro h0
        subst h0
        simp at hnext
        omega
      rw [if_neg hlne]
      show glue line (paraJoin (wrapWords width w ws)) = _
      rw [ih w hws' hwlen]
      rfl

theorem paraJoin_eq_intercalate :
    ∀ (ws : List (List Char)), (∀ w ∈ ws, w ≠ []) →
      paraJoin ws = List.intercalate [' '] ws := by
  intro ws
  induction ws with
  | nil => intro _; rfl
  | cons w ws ih =>
    intro h
    have hw := h w (List.mem_cons_self w ws)
    cases ws with
    | nil =>
      show glue w [] = _
      rw [glue_nil_right]
      simp [List.intercalate]
    | cons v vs =>
      have hrest : ∀ l ∈ v :: vs, l ≠ [] :=
        fun l hl => h l (List.mem_cons_of_mem w hl)
      have hpj : paraJoin (v :: vs) ≠ [] :=
        paraJoin_ne_nil _ hrest (by simp)
      show glue w (paraJoin (v :: vs)) = _
      unfold glue
      rw [if_neg hw, if_neg hpj, ih hrest]
      rw [show List.intercalate [' '] (w :: v :: vs)
          = w ++ ' ' :: List.intercalate [' '] (v :: vs) from by
        simp [List.intercalate, List.intersperse_cons_cons]]

theorem unwrap_wrapParas (width : Nat) :
    ∀ (ps : List (List Char)) (lst : Option (List Char)),
      (∀ p ∈ ps, ∀ w ∈ wordsOf p, w.length ≤ width) →
      (∀ p ∈ ps.dropLast, some p ≠ lst) →
      (ps ≠ [] → ps.getLast? = lst) →
      unwrap (wrapParas width lst ps)
        = List.intercalate ['\n']
            (ps.map (fun p => List.intercalate [' '] (wordsOf p))) := by
  intro ps
  induction ps with
  | nil =>
    intro lst _ _ _
    rfl
  | cons p ps ih =>
    intro lst hw hdrop hlast
    have hwp : ∀ w ∈ wordsOf p, w ≠ [] ∧ w.length ≤ width := fun w hw' =>
      ⟨wordsOf_ne_nil p w hw', hw p (List.mem_cons_self p ps) w hw'⟩
    have hall : ∀ l ∈ wrapWords width [] (wordsOf p), l ≠ [] :=
      fun l hl => (wrapWords_mem width (wordsOf p) [] (by simp) l hl).2.1
    have hjoin : paraJoin (wrapWords width [] (wordsOf p))
        = List.intercalate [' '] (wordsOf p) := by
      rw [wrapWords_paraJoin width (wordsOf p) [] hwp (by simp)]
      rw [show glue [] (paraJoin (wordsOf p)) = paraJoin (wordsOf p) from
        if_pos rfl]
      exact paraJoin_eq_intercalate (wordsOf p) (fun w hw' => (hwp w hw').1)
    cases ps with
    | nil =>
      have hl : some p = lst := by
        have := hlast (by simp)
        simpa using this
      show unwrap (wrapWords width [] (wordsOf p) ++
        (if some p = lst then [] else [[]]) ++ wrapParas width lst []) = _
      rw [if_pos hl]
      show unwrap (wrapWords width [] (wordsOf p) ++ [] ++ []) = _
      rw [List.append_nil, List.append_nil, unwrap_all_ne _ hall, hjoin]
      simp [List.intercalate]
    | cons q qs =>
      have hne : some p ≠ lst := hdrop p (by simp)
      show unwrap (wrapWords width [] (wordsOf p) ++
        (if some p = lst then [] else [[]]) ++ wrapParas width lst (q :: qs)) = _
      rw [if_neg hne]
      rw [show wrapWords width [] (wordsOf p) ++ [[]] ++ wrapParas width lst (q :: qs)
          = wrapWords width [] (wordsOf p) ++ ([] :: wrapParas width lst (q :: qs))
        from by simp]
      rw [unwrap_group _ _ hall, hjoin]
      rw [ih lst
        (fun p' h' w hw' => hw p' (List.mem_cons_of_mem p h') w hw')
        (fun p' h' => hdrop p' (by
          simp only [List.dropLast_cons₂, List.mem_cons]
          exact Or.inr h'))
        (fun _ => by rw [← hlast (by simp)]; rfl)]
      rw [show List.intercalate ['\n']
            ((p :: q :: qs).map (fun p => List.intercalate [' '] (wordsOf p)))
          = List.intercalate [' '] (wordsOf p) ++ '\n' ::
              List.intercalate ['\n']
                ((q :: qs).map (fun p => List.intercalate [' '] (wordsOf p)))
        from by
          simp [List.intercalate, List.intersperse_cons_cons]]

/-- Claim C4 counterexample: an 11-character single word wrapped at width
10 is hard-split into two lines; the reconstruction re-joins them with a
space, so the round trip does not reproduce the normalized input. -/
theorem wrap_not_reversible :
    unwrap (wrapText "aaaaaaaaaaa".toList 10)
      ≠ normalizeWS "aaaaaaaaaaa".toList := by
  decide

/-- Claim C4 amended: for width ≥ 10, if every whitespace-delimited word
of the input fits the width (so no word is hard-split) and no non-final
paragraph is equal, as a string, to the final paragraph (so the buggy
separator check still emits every paragraph break), then concatenating
the wrapped lines — blank lines back to newlines, line joins back to
single spaces — reproduces the whitespace-normalized input. -/
theorem wrap_reversible (text : List Char) (width : Nat) (h10 : 10 ≤ width)
    (hw : ∀ p ∈ paras text, ∀ w ∈ wordsOf p, w.length ≤ width)
    (hdup : ∀ p ∈ (paras text).dropLast, some p ≠ (paras text).getLast?) :
    unwrap (wrapText text width) = normalizeWS text := by
  unfold wrapText normalizeWS
  exact unwrap_wrapParas width (paras text) (paras text).getLast? hw hdup
    (fun _ => rfl)

/-- Witness for `wrap_reversible` at a concrete two-paragraph input. -/
theorem wrap_reversible_witness :
    10 ≤ 10 ∧
      (∀ p ∈ paras "ab cd\n\nef".toList, ∀ w ∈ wordsOf p, w.length ≤ 10) ∧
      (∀ p ∈ (paras "ab cd\n\nef".toList).dropLast,
        some p ≠ (paras "ab cd\n\nef".toList).getLast?) ∧
      unwrap (wrapText "ab cd\n\nef".toList 10)
        = normalizeWS "ab cd\n\nef".toList :=
  ⟨by decide, by decide, by decide,
    wrap_reversible "ab cd\n\nef".toList 10 (by decide) (by decide) (by decide)⟩

end Chat
